import Mathlib

/-!
Shallow embedding of `src/full_sync3.py` (gavensmart/ilios_sync): the
merge/dedup engine (`parse_and_store`), the categorizer and the
multi-destination mirroring state machine (`mirror_and_color`).

Python strings are modelled as Lean `String`s; Python dicts (which preserve
insertion order and keep a key's original position on value overwrite) are
modelled as association lists with an insert-or-overwrite operation; Python
sets of strings are modelled as lists with membership; the external Google
calendar `insert` call is modelled as an oracle `Nat → Bool` giving the
success or failure of the n-th insert call of the run.
-/

namespace IliosSync

/-- A stored event record, the dict
`{"uid": ..., "summary": ..., "description": ..., "dtstart": ..., "dtend": ...}`
built in `parse_and_store` (full_sync3.py lines 90-96). Timestamps are the
ISO strings the code stores. -/
structure Evt where
  uid : String
  summary : String
  description : String
  dtstart : String
  dtend : String
deriving DecidableEq, Repr

/-- The composite identity key `f"{summary}|{dtstart}"`
(full_sync3.py lines 72 and 86). -/
def keyOf (e : Evt) : String := e.summary ++ "|" ++ e.dtstart

/-- The keys, in order, of a list of records. -/
def keysOf (l : List Evt) : List String := l.map keyOf

/-- Association-list lookup by string key (first binding wins), the read
side of a Python dict. -/
def lookupK {α : Type} : List (String × α) → String → Option α
  | [], _ => none
  | p :: t, k => if p.1 = k then some p.2 else lookupK t k

/-- `unique[key] = e` on a Python dict: overwrite the value in place if the
key is present (the key keeps its original position), append otherwise. -/
def dictInsert (d : List (String × Evt)) (k : String) (e : Evt) :
    List (String × Evt) :=
  if k ∈ d.map Prod.fst then
    d.map (fun p => if p.1 = k then (k, e) else p)
  else
    d ++ [(k, e)]

/-- The self-healing pass of `parse_and_store` (full_sync3.py lines 70-73):
`unique = {}; for e in stored: unique[f"{e['summary']}|{e['dtstart']}"] = e`. -/
def selfHealDict (stored : List Evt) : List (String × Evt) :=
  stored.foldl (fun d e => dictInsert d (keyOf e) e) []

/-- One step of the ingestion loop of `parse_and_store`
(full_sync3.py lines 78-97): state is `(new_events, existing_keys)`;
a record whose key is already known is discarded, otherwise it is appended
to `new_events` and its key is added to `existing_keys`. -/
def mergeStep (acc : List Evt × List String) (c : Evt) : List Evt × List String :=
  if keyOf c ∈ acc.2 then acc
  else (acc.1 ++ [c], acc.2 ++ [keyOf c])

/-- The merge operation of `parse_and_store` (full_sync3.py lines 59-103),
with the file I/O and ics parsing abstracted away: rebuild `stored` through
the self-healing dict, then ingest `incoming` left to right, skipping keys
already present; returns `(merged, added)` -- `stored.extend(new_events)`
and `new_events`. -/
def mergeStore (stored incoming : List Evt) : List Evt × List Evt :=
  let uniq := selfHealDict stored
  let stored1 := uniq.map Prod.snd
  let r := incoming.foldl mergeStep ([], uniq.map Prod.fst)
  (stored1 ++ r.1, r.1)

/-! ### Lemmas about the self-healing dict -/

theorem map_fst_dictInsert (d : List (String × Evt)) (k : String) (e : Evt) :
    (dictInsert d k e).map Prod.fst =
      if k ∈ d.map Prod.fst then d.map Prod.fst else d.map Prod.fst ++ [k] := by
  by_cases h : k ∈ d.map Prod.fst
  · simp only [dictInsert, if_pos h, List.map_map]
    refine List.map_congr_left (fun p _ => ?_)
    by_cases hp : p.1 = k
    · simp [hp]
    · simp [hp]
  · simp [dictInsert, if_neg h]

theorem mem_keys_dictInsert (d : List (String × Evt)) (k x : String) (e : Evt) :
    x ∈ (dictInsert d k e).map Prod.fst ↔ x ∈ d.map Prod.fst ∨ x = k := by
  rw [map_fst_dictInsert]
  by_cases h : k ∈ d.map Prod.fst
  · simp only [if_pos h]
    constructor
    · exact Or.inl
    · rintro (hx | rfl)
      · exact hx
      · exact h
  · simp [if_neg h]

theorem nodup_keys_dictInsert (d : List (String × Evt)) (k : String) (e : Evt)
    (h : (d.map Prod.fst).Nodup) : ((dictInsert d k e).map Prod.fst).Nodup := by
  rw [map_fst_dictInsert]
  by_cases hk : k ∈ d.map Prod.fst
  · simpa [if_pos hk] using h
  · simp [if_neg hk, List.nodup_append, h, hk]

theorem lookupK_map_replace (d : List (String × Evt)) (k x : String) (e : Evt)
    (hx : x ≠ k) :
    lookupK (d.map (fun p => if p.1 = k then (k, e) else p)) x = lookupK d x := by
  induction d with
  | nil => rfl
  | cons p t ih =>
    by_cases hp : p.1 = k
    · rw [List.map_cons, if_pos hp]
      simp only [lookupK]
      have h1 : ¬ (k = x) := fun h => hx h.symm
      have h2 : ¬ (p.1 = x) := fun h => hx (h ▸ hp)
      rw [if_neg h1, if_neg h2, ih]
    · rw [List.map_cons, if_neg hp]
      simp only [lookupK, ih]

theorem lookupK_map_replace_self (d : List (String × Evt)) (k : String) (e : Evt)
    (hk : k ∈ d.map Prod.fst) :
    lookupK (d.map (fun p => if p.1 = k then (k, e) else p)) k = some e := by
  induction d with
  | nil => simp at hk
  | cons p t ih =>
    simp only [List.map_cons, List.mem_cons] at hk
    by_cases hp : p.1 = k
    · rw [List.map_cons, if_pos hp]
      simp [lookupK]
    · rw [List.map_cons, if_neg hp]
      simp only [lookupK]
      rw [if_neg hp, ih (hk.resolve_left (fun h => hp h.symm))]

theorem lookupK_append (d₁ d₂ : List (String × Evt)) (x : String) :
    lookupK (d₁ ++ d₂) x =
      match lookupK d₁ x with
      | some v => some v
      | none => lookupK d₂ x := by
  induction d₁ with
  | nil => rfl
  | cons p t ih =>
    by_cases hp : p.1 = x
    · simp [lookupK, if_pos hp]
    · simp [lookupK, if_neg hp, ih]

theorem lookupK_eq_none (d : List (String × Evt)) (x : String)
    (hx : x ∉ d.map Prod.fst) : lookupK d x = none := by
  induction d with
  | nil => rfl
  | cons p t ih =>
    simp only [List.map_cons, List.mem_cons, not_or] at hx
    have h1 : ¬ (p.1 = x) := fun h => hx.1 h.symm
    simp only [lookupK]
    rw [if_neg h1, ih hx.2]

theorem lookupK_dictInsert (d : List (String × Evt)) (k x : String) (e : Evt) :
    lookupK (dictInsert d k e) x = if x = k then some e else lookupK d x := by
  by_cases hk : k ∈ d.map Prod.fst
  · rw [dictInsert, if_pos hk]
    by_cases hx : x = k
    · subst hx
      rw [if_pos rfl, lookupK_map_replace_self d x e hk]
    · rw [if_neg hx, lookupK_map_replace d k x e hx]
  · rw [dictInsert, if_neg hk, lookupK_append]
    by_cases hx : x = k
    · subst hx
      rw [lookupK_eq_none d x hk, if_pos rfl]
      simp [lookupK]
    · rw [if_neg hx]
      cases h : lookupK d x with
      | none =>
        have h1 : ¬ (k = x) := fun h' => hx h'.symm
        simp only [lookupK]
        rw [if_neg h1]
      | some v => rfl

/-- Keep the first occurrence of every key, dropping later duplicates:
the order in which a Python dict lists its keys. -/
def dedupFirst : List String → List String
  | [] => []
  | k :: t => k :: dedupFirst (t.filter (fun x => x ≠ k))
termination_by l => l.length
decreasing_by simpa using Nat.lt_succ_of_le (List.length_filter_le _ t)

theorem mem_dedupFirst (l : List String) (x : String) : x ∈ dedupFirst l ↔ x ∈ l := by
  induction l using dedupFirst.induct with
  | case1 => simp [dedupFirst]
  | case2 k t ih =>
    rw [dedupFirst]
    simp only [List.mem_cons, ih, List.mem_filter]
    by_cases hx : x = k
    · simp [hx]
    · simp [hx]

theorem dedupFirst_concat (l : List String) (k : String) :
    dedupFirst (l ++ [k]) = if k ∈ l then dedupFirst l else dedupFirst l ++ [k] := by
  induction l using dedupFirst.induct with
  | case1 => simp [dedupFirst]
  | case2 x t ih =>
    rw [List.cons_append, dedupFirst, List.filter_append, dedupFirst]
    by_cases hk : k = x
    · rw [List.filter_cons, if_neg (by simp [hk]), List.filter_nil, List.append_nil,
        if_pos (by simp [hk])]
    · rw [List.filter_cons, if_pos (by simp [hk]), List.filter_nil, ih]
      by_cases hkt : k ∈ t
      · rw [if_pos (List.mem_filter.2 ⟨hkt, by simp [hk]⟩), if_pos (by simp [hkt])]
      · rw [if_neg (fun h => hkt (List.mem_filter.1 h).1),
          if_neg (by simp [hk, hkt]), List.cons_append]

theorem selfHealDict_concat (l : List Evt) (e : Evt) :
    selfHealDict (l ++ [e]) = dictInsert (selfHealDict l) (keyOf e) e := by
  unfold selfHealDict
  rw [List.foldl_append, List.foldl_cons, List.foldl_nil]

theorem mem_keys_selfHeal (l : List Evt) (x : String) :
    x ∈ (selfHealDict l).map Prod.fst ↔ x ∈ keysOf l := by
  induction l using List.reverseRecOn with
  | nil => simp [selfHealDict, keysOf]
  | append_singleton t e ih =>
    rw [selfHealDict_concat, mem_keys_dictInsert]
    simp [keysOf, ih]

theorem keys_selfHeal (l : List Evt) :
    (selfHealDict l).map Prod.fst = dedupFirst (keysOf l) := by
  induction l using List.reverseRecOn with
  | nil => simp [selfHealDict, keysOf, dedupFirst]
  | append_singleton t e ih =>
    rw [selfHealDict_concat, map_fst_dictInsert, ih]
    have hkeys : keysOf (t ++ [e]) = keysOf t ++ [keyOf e] := by simp [keysOf]
    rw [hkeys, dedupFirst_concat]
    simp [mem_dedupFirst]

theorem nodup_keys_selfHeal (l : List Evt) :
    ((selfHealDict l).map Prod.fst).Nodup := by
  induction l using List.reverseRecOn with
  | nil => simp [selfHealDict]
  | append_singleton t e ih => rw [selfHealDict_concat]; exact nodup_keys_dictInsert _ _ _ ih

theorem selfHeal_inv (l : List Evt) :
    ∀ p ∈ selfHealDict l, keyOf p.2 = p.1 := by
  induction l using List.reverseRecOn with
  | nil => intro p hp; simp [selfHealDict] at hp
  | append_singleton t e ih =>
    intro p hp
    rw [selfHealDict_concat] at hp
    unfold dictInsert at hp
    by_cases hk : keyOf e ∈ (selfHealDict t).map Prod.fst
    · rw [if_pos hk] at hp
      rcases List.mem_map.1 hp with ⟨q, hq, rfl⟩
      by_cases hq1 : q.1 = keyOf e
      · simp [hq1]
      · simpa [hq1] using ih q hq
    · rw [if_neg hk] at hp
      rcases List.mem_append.1 hp with hp | hp
      · exact ih p hp
      · simp at hp
        simp [hp]

/-- The value surviving for key `x` in the self-healing dict is the LAST
record of `stored` bearing that key (Python dict assignment overwrites). -/
theorem lookupK_selfHeal (l : List Evt) (x : String) :
    lookupK (selfHealDict l) x =
      (l.filter (fun r => keyOf r = x)).getLast? := by
  induction l using List.reverseRecOn with
  | nil => rfl
  | append_singleton t e ih =>
    rw [selfHealDict_concat, lookupK_dictInsert, List.filter_append, List.filter_cons,
      List.filter_nil]
    by_cases hx : x = keyOf e
    · have h1 : decide (keyOf e = x) = true := by simp [hx]
      rw [if_pos hx, if_pos h1, List.getLast?_concat]
    · have h1 : ¬ (decide (keyOf e = x) = true) := by
        simp only [decide_eq_true_eq]
        exact fun h => hx h.symm
      rw [if_neg hx, if_neg h1, List.append_nil, ih]

/-! ### Lemmas about the ingestion fold of `parse_and_store` -/

theorem keysOf_values (d : List (String × Evt)) (h : ∀ p ∈ d, keyOf p.2 = p.1) :
    keysOf (d.map Prod.snd) = d.map Prod.fst := by
  unfold keysOf
  rw [List.map_map]
  exact List.map_congr_left h

theorem mergeFold_state (inc : List Evt) :
    ∀ (a : List Evt) (ks0 : List String),
      (inc.foldl mergeStep (a, ks0 ++ keysOf a)).2 =
        ks0 ++ keysOf (inc.foldl mergeStep (a, ks0 ++ keysOf a)).1 := by
  induction inc with
  | nil => intro a ks0; rfl
  | cons c t ih =>
    intro a ks0
    simp only [List.foldl_cons, mergeStep]
    by_cases hc : keyOf c ∈ ks0 ++ keysOf a
    · rw [if_pos hc]; exact ih a ks0
    · rw [if_neg hc]
      have hrw : (ks0 ++ keysOf a) ++ [keyOf c] = ks0 ++ keysOf (a ++ [c]) := by
        simp [keysOf]
      rw [hrw]
      exact ih (a ++ [c]) ks0

theorem mergeFold_snd_mono (inc : List Evt) :
    ∀ (a : List Evt) (ks : List String) (x : String), x ∈ ks →
      x ∈ (inc.foldl mergeStep (a, ks)).2 := by
  induction inc with
  | nil => intro a ks x hx; exact hx
  | cons c t ih =>
    intro a ks x hx
    simp only [List.foldl_cons, mergeStep]
    by_cases hc : keyOf c ∈ ks
    · rw [if_pos hc]; exact ih a ks x hx
    · rw [if_neg hc]; exact ih _ _ x (List.mem_append.2 (Or.inl hx))

theorem mergeFold_mem_key (inc : List Evt) :
    ∀ (a : List Evt) (ks : List String) (c : Evt), c ∈ inc →
      keyOf c ∈ (inc.foldl mergeStep (a, ks)).2 := by
  induction inc with
  | nil => intro a ks c hc; simp at hc
  | cons c0 t ih =>
    intro a ks c hc
    simp only [List.foldl_cons, mergeStep]
    rcases List.mem_cons.1 hc with rfl | hc
    · by_cases h0 : keyOf c ∈ ks
      · rw [if_pos h0]; exact mergeFold_snd_mono t _ _ _ h0
      · rw [if_neg h0]
        exact mergeFold_snd_mono t _ _ _
          (List.mem_append.2 (Or.inr (List.mem_singleton.2 rfl)))
    · by_cases h0 : keyOf c0 ∈ ks
      · rw [if_pos h0]; exact ih a ks c hc
      · rw [if_neg h0]; exact ih _ _ c hc

theorem mergeFold_all_known (inc : List Evt) :
    ∀ (a : List Evt) (ks : List String), (∀ c ∈ inc, keyOf c ∈ ks) →
      inc.foldl mergeStep (a, ks) = (a, ks) := by
  induction inc with
  | nil => intro a ks _; rfl
  | cons c t ih =>
    intro a ks h
    simp only [List.foldl_cons, mergeStep]
    rw [if_pos (h c (List.mem_cons_self c t))]
    exact ih a ks (fun c' hc' => h c' (List.mem_cons_of_mem _ hc'))

theorem mergeFold_nodup (inc : List Evt) :
    ∀ (a : List Evt) (ks : List String), ks.Nodup →
      (inc.foldl mergeStep (a, ks)).2.Nodup := by
  induction inc with
  | nil => intro a ks h; exact h
  | cons c t ih =>
    intro a ks h
    simp only [List.foldl_cons, mergeStep]
    by_cases hc : keyOf c ∈ ks
    · rw [if_pos hc]; exact ih a ks h
    · rw [if_neg hc]
      exact ih _ _ (by simp [List.nodup_append, h, hc])

theorem keysOf_mergeStore (stored incoming : List Evt) :
    keysOf (mergeStore stored incoming).1 =
      (incoming.foldl mergeStep ([], (selfHealDict stored).map Prod.fst)).2 := by
  have hstate := mergeFold_state incoming [] ((selfHealDict stored).map Prod.fst)
  simp only [keysOf, List.map_nil, List.append_nil] at hstate
  simp only [mergeStore, keysOf, List.map_append]
  rw [hstate]
  congr 1
  have h := keysOf_values (selfHealDict stored) (selfHeal_inv stored)
  simpa [keysOf] using h

/-! ### Claims about the merge/dedup engine -/

/-- C2: the merge operation of `parse_and_store` is idempotent — for every
existing store and every incoming sequence, re-running the merge with the
same incoming records against the merged result of the first run yields an
empty list of newly-added records. -/
theorem merge_idempotent (stored incoming : List Evt) :
    (mergeStore (mergeStore stored incoming).1 incoming).2 = [] := by
  have hks : ∀ c ∈ incoming, keyOf c ∈ keysOf (mergeStore stored incoming).1 := by
    intro c hc
    rw [keysOf_mergeStore]
    exact mergeFold_mem_key incoming [] _ c hc
  have hks2 : ∀ c ∈ incoming,
      keyOf c ∈ (selfHealDict (mergeStore stored incoming).1).map Prod.fst :=
    fun c hc => (mem_keys_selfHeal _ _).2 (hks c hc)
  have hr := mergeFold_all_known incoming []
    ((selfHealDict (mergeStore stored incoming).1).map Prod.fst) hks2
  have hsnd : ∀ s i : List Evt,
      (mergeStore s i).2 = (i.foldl mergeStep ([], (selfHealDict s).map Prod.fst)).1 :=
    fun _ _ => rfl
  rw [hsnd, hr]

/-- C4: a single merge call always produces a store with at most one record
per `(summary, dtstart)` identity key — the self-healing pass collapses even
pre-existing duplicates, and the ingestion loop never adds a key twice. -/
theorem merge_store_nodup_keys (stored incoming : List Evt) :
    (keysOf (mergeStore stored incoming).1).Nodup := by
  rw [keysOf_mergeStore]
  exact mergeFold_nodup incoming [] _ (nodup_keys_selfHeal stored)

/-- C3: merge is first-write-wins. First conjunct: for a key not yet in the
store, ingesting two records with the same identity key but different
description/uid keeps exactly the first record (the second is discarded and
is not in `added`). Second conjunct: an incoming record whose key already
exists in the store is discarded and leaves the (self-healed) store
unchanged, never overwriting the stored record. -/
theorem merge_first_write_wins :
    (∀ (stored : List Evt) (r1 r2 : Evt),
        keyOf r1 = keyOf r2 →
        r1.description ≠ r2.description ∨ r1.uid ≠ r2.uid →
        keyOf r1 ∉ keysOf stored →
        (mergeStore stored [r1, r2]).1.filter (fun e => keyOf e = keyOf r1) = [r1] ∧
          (mergeStore stored [r1, r2]).2 = [r1]) ∧
    (∀ (stored : List Evt) (r : Evt),
        keyOf r ∈ keysOf stored →
        mergeStore stored [r] = ((selfHealDict stored).map Prod.snd, [])) := by
  constructor
  · intro stored r1 r2 hk12 _ hnotin
    have h1 : keyOf r1 ∉ (selfHealDict stored).map Prod.fst :=
      fun h => hnotin ((mem_keys_selfHeal _ _).1 h)
    have h2 : keyOf r2 ∈ (selfHealDict stored).map Prod.fst ++ [keyOf r1] := by
      rw [← hk12]
      exact List.mem_append.2 (Or.inr (List.mem_singleton.2 rfl))
    have hfilter1 :
        ((selfHealDict stored).map Prod.snd).filter (fun e => keyOf e = keyOf r1) = [] := by
      rw [List.filter_eq_nil_iff]
      intro e he
      rcases List.mem_map.1 he with ⟨p, hp, rfl⟩
      have hkey : keyOf p.2 = p.1 := selfHeal_inv stored p hp
      simp only [decide_eq_true_eq]
      intro hcontra
      exact h1 (hcontra ▸ hkey ▸ List.mem_map.2 ⟨p, hp, rfl⟩)
    simp only [mergeStore, List.foldl_cons, List.foldl_nil, mergeStep]
    rw [if_neg h1]
    simp only [List.nil_append]
    rw [if_pos (by simpa using h2)]
    refine ⟨?_, rfl⟩
    rw [List.filter_append, hfilter1, List.nil_append, List.filter_cons,
      if_pos (by simp), List.filter_nil]
  · intro stored r hr
    have h1 : keyOf r ∈ (selfHealDict stored).map Prod.fst := (mem_keys_selfHeal _ _).2 hr
    simp only [mergeStore, List.foldl_cons, List.foldl_nil, mergeStep]
    rw [if_pos h1]
    simp

/-- Witness for C3 at concrete records: two records sharing summary "A" and
dtstart "T1" but with different uid/description. -/
theorem merge_first_write_wins_witness :
    ((mergeStore [] [Evt.mk "u1" "A" "d1" "T1" "E1", Evt.mk "u2" "A" "d2" "T1" "E2"]).1.filter
        (fun e => keyOf e = keyOf (Evt.mk "u1" "A" "d1" "T1" "E1")) =
          [Evt.mk "u1" "A" "d1" "T1" "E1"] ∧
      (mergeStore [] [Evt.mk "u1" "A" "d1" "T1" "E1", Evt.mk "u2" "A" "d2" "T1" "E2"]).2 =
          [Evt.mk "u1" "A" "d1" "T1" "E1"]) ∧
    mergeStore [Evt.mk "u1" "A" "d1" "T1" "E1"] [Evt.mk "u2" "A" "d2" "T1" "E2"] =
      ((selfHealDict [Evt.mk "u1" "A" "d1" "T1" "E1"]).map Prod.snd, []) :=
  ⟨merge_first_write_wins.1 [] _ _ (by decide) (Or.inl (by decide)) (by simp [keysOf]),
    merge_first_write_wins.2 [Evt.mk "u1" "A" "d1" "T1" "E1"] (Evt.mk "u2" "A" "d2" "T1" "E2")
      (by simp [keysOf, keyOf])⟩

/-- C9: the self-healing pass of `parse_and_store` (reached by a merge with
empty incoming it returns exactly the self-healed store): keys survive in
order of their first occurrence in the existing store, and the surviving
record for a key is the last record of the existing store bearing that key. -/
theorem selfHeal_last_value_first_position (stored : List Evt) :
    (mergeStore stored []).1 = (selfHealDict stored).map Prod.snd ∧
    (selfHealDict stored).map Prod.fst = dedupFirst (keysOf stored) ∧
    ∀ k : String, lookupK (selfHealDict stored) k =
      (stored.filter (fun r => keyOf r = k)).getLast? := by
  refine ⟨?_, keys_selfHeal stored, fun k => lookupK_selfHeal stored k⟩
  simp [mergeStore]

/-! ### The categorizer of `mirror_and_color` -/

/-- First-match lookup through a character translation table; characters
not in the table are left unchanged. -/
def lowerLookup : List (Char × Char) → Char → Char
  | [], c => c
  | (u, l) :: rest, c => if c = u then l else lowerLookup rest c

/-- The uppercase-to-lowercase table of the ASCII letters. -/
def UPPER_LOWER : List (Char × Char) :=
  [('A', 'a'), ('B', 'b'), ('C', 'c'), ('D', 'd'), ('E', 'e'), ('F', 'f'),
   ('G', 'g'), ('H', 'h'), ('I', 'i'), ('J', 'j'), ('K', 'k'), ('L', 'l'),
   ('M', 'm'), ('N', 'n'), ('O', 'o'), ('P', 'p'), ('Q', 'q'), ('R', 'r'),
   ('S', 's'), ('T', 't'), ('U', 'u'), ('V', 'v'), ('W', 'w'), ('X', 'x'),
   ('Y', 'y'), ('Z', 'z')]

/-- ASCII lowercasing of one character, the per-character action of Python's
`str.lower()` on the ASCII letters (the feed text and every keyword of
`COLOR_MAP` are ASCII). -/
def lowerChar (c : Char) : Char := lowerLookup UPPER_LOWER c

/-- `s.lower()` on the character sequence of a string. -/
def lowerData (s : String) : List Char := s.data.map lowerChar

/-- Does `s` start with the pattern `pat`? -/
def startsWithPat : List Char → List Char → Bool
  | _, [] => true
  | [], _ :: _ => false
  | c :: s, p :: ps => c == p && startsWithPat s ps

/-- Python's substring test `pat in s` over character lists. -/
def occursIn (pat : List Char) : List Char → Bool
  | [] => pat.isEmpty
  | c :: t => startsWithPat (c :: t) pat || occursIn pat t

/-- The keyword-to-colorId table `COLOR_MAP` of full_sync3.py lines 26-45,
in dict insertion order. -/
def COLOR_MAP : List (String × String) :=
  [("lecture", "10"),
   ("anatomy lab quiz", "7"),
   ("Q&A", "8"),
   ("holiday", "8"),
   ("lab", "5"),
   ("exam", "7"),
   ("discussion, large group", "8"),
   ("discussion, small group", "4"),
   ("anatomy lab", "5"),
   ("quiz", "7"),
   ("required", "4"),
   ("simulation", "8"),
   ("optional", "8"),
   ("independent learning", "8"),
   ("clinical skills practical", "7"),
   ("clinical skills practical prep session", "8")]

/-- Stable insertion used to model Python's stable `sorted` with key
`-len(keyword)`: an element is placed after every already-placed element of
length greater than or equal to its own. -/
def insertByLen (x : String × String) : List (String × String) → List (String × String)
  | [] => [x]
  | y :: ys => if y.1.length < x.1.length then x :: y :: ys else y :: insertByLen x ys

/-- `sorted(COLOR_MAP.items(), key=lambda item: -len(item[0]))`
(full_sync3.py line 164): stable descending sort by keyword length. -/
def sortedKeywords : List (String × String) :=
  COLOR_MAP.foldl (fun acc x => insertByLen x acc) []

/-- `combo = (evt["summary"] + " " + evt.get("description","")).lower()`
(full_sync3.py line 171). -/
def comboOf (evt : Evt) : List Char :=
  lowerData (evt.summary ++ " " ++ evt.description)

/-- `next((cid for kw, cid in sorted_keywords if kw in combo), None)`
(full_sync3.py line 177). -/
def findColor : List (String × String) → List Char → Option String
  | [], _ => none
  | (kw, cid) :: rest, combo =>
    if occursIn kw.data combo then some cid else findColor rest combo

/-- The categorizer of `mirror_and_color` (full_sync3.py lines 173-177):
the explicit anatomy-lab-quiz override, then the longest-keyword scan. -/
def colorIdFor (evt : Evt) : Option String :=
  let combo := comboOf evt
  if occursIn "anatomy lab".data combo && occursIn "quiz".data combo then some "7"
  else findColor sortedKeywords combo

/-- `sortedKeywords` evaluated: keywords in descending length, ties in
`COLOR_MAP` insertion order (Python's sort is stable). -/
theorem sortedKeywords_eval :
    sortedKeywords =
      [("clinical skills practical prep session", "8"),
       ("clinical skills practical", "7"),
       ("discussion, large group", "8"),
       ("discussion, small group", "4"),
       ("independent learning", "8"),
       ("anatomy lab quiz", "7"),
       ("anatomy lab", "5"),
       ("simulation", "8"),
       ("required", "4"),
       ("optional", "8"),
       ("lecture", "10"),
       ("holiday", "8"),
       ("exam", "7"),
       ("quiz", "7"),
       ("Q&A", "8"),
       ("lab", "5")] := by decide

/-- Python's `str.strip()` whitespace class (ASCII part). -/
def isPyWhitespace (c : Char) : Bool :=
  c = ' ' || c = '\t' || c = '\n' || c = '\r' || c = '\x0b' || c = '\x0c'

/-- `s.strip()`: drop leading and trailing whitespace. -/
def stripStr (s : String) : String :=
  ⟨((s.data.dropWhile isPyWhitespace).reverse.dropWhile isPyWhitespace).reverse⟩

/-- The outbound Google-calendar event body built in `mirror_and_color`
(full_sync3.py lines 170 and 180-188). `startDateTime`/`endDateTime` stand
for the `{"dateTime": ..., "timeZone": "UTC"}` objects. -/
structure GBody where
  summary : String
  description : String
  startDateTime : String
  endDateTime : String
  colorId : Option String
deriving DecidableEq, Repr

/-- Build the body for an event: description gets the `UID:` trailer
(line 170); the `colorId` field is attached only when `color_id` is truthy
(lines 186-188). -/
def buildBody (evt : Evt) : GBody :=
  { summary := evt.summary
    description := stripStr ⟨(stripStr evt.description).data ++ ('\n' :: "UID:".data) ++ evt.uid.data⟩
    startDateTime := evt.dtstart
    endDateTime := evt.dtend
    colorId :=
      match colorIdFor evt with
      | some c => if c = "" then none else some c
      | none => none }

/-! ### Claims about the categorizer -/

theorem findColor_eq_none (l : List (String × String)) (combo : List Char)
    (h : ∀ p ∈ l, occursIn p.1.data combo = false) : findColor l combo = none := by
  induction l with
  | nil => rfl
  | cons p t ih =>
    cases p with
    | mk kw cid =>
      rw [findColor, h (kw, cid) (List.mem_cons_self _ _)]
      simp [ih (fun q hq => h q (List.mem_cons_of_mem _ hq))]

/-- C6: the anatomy-lab-quiz override returns the fixed category "7"
whenever both markers occur in the lowercased search text; when no keyword
of the table matches, the categorizer returns none; and a none category
attaches no `colorId` field to the outbound body. -/
theorem categorizer_override (evt : Evt) :
    (occursIn "anatomy lab".data (comboOf evt) = true →
      occursIn "quiz".data (comboOf evt) = true →
      colorIdFor evt = some "7") ∧
    ((∀ p ∈ sortedKeywords, occursIn p.1.data (comboOf evt) = false) →
      colorIdFor evt = none) ∧
    (colorIdFor evt = none → (buildBody evt).colorId = none) := by
  refine ⟨?_, ?_, ?_⟩
  · intro h1 h2
    simp [colorIdFor, h1, h2]
  · intro h
    have hal : occursIn "anatomy lab".data (comboOf evt) = false :=
      h ("anatomy lab", "5") (by rw [sortedKeywords_eval]; simp)
    simp [colorIdFor, hal, findColor_eq_none sortedKeywords (comboOf evt) h]
  · intro h
    simp [buildBody, h]

/-- Witness for C6: "Anatomy Lab Quiz" triggers the override; "zzz" matches
no keyword, gets no category and its body carries no colorId. -/
theorem categorizer_override_witness :
    colorIdFor (Evt.mk "u" "Anatomy Lab Quiz" "" "T" "E") = some "7" ∧
    colorIdFor (Evt.mk "u" "zzz" "" "T" "E") = none ∧
    (buildBody (Evt.mk "u" "zzz" "" "T" "E")).colorId = none :=
  ⟨(categorizer_override (Evt.mk "u" "Anatomy Lab Quiz" "" "T" "E")).1 (by decide) (by decide),
   (categorizer_override (Evt.mk "u" "zzz" "" "T" "E")).2.1 (by decide),
   (categorizer_override (Evt.mk "u" "zzz" "" "T" "E")).2.2 (by decide)⟩

/-- Counterexample to C5 as stated: the search text of this record contains
"anatomy lab" and does not trigger the override, yet the categorizer
returns "8" (the category of the longer matching keyword
"discussion, large group"), not "5" (the category of "anatomy lab"). -/
theorem categorizer_precedence_counterexample :
    occursIn "anatomy lab".data
        (comboOf (Evt.mk "u" "Anatomy Lab discussion, large group" "" "T" "E")) = true ∧
    occursIn "quiz".data
        (comboOf (Evt.mk "u" "Anatomy Lab discussion, large group" "" "T" "E")) = false ∧
    colorIdFor (Evt.mk "u" "Anatomy Lab discussion, large group" "" "T" "E") = some "8" ∧
    colorIdFor (Evt.mk "u" "Anatomy Lab discussion, large group" "" "T" "E") ≠ some "5" := by
  decide

/-- C5 (amended): keyword rules are scanned in descending keyword length
(`sortedKeywords` is sorted that way), and a record whose search text
contains "anatomy lab", does not trigger the override, and is matched by no
keyword of the map longer than "anatomy lab" is assigned "5" — the category
of "anatomy lab" (the shorter rule "lab" maps to the same category here). -/
theorem categorizer_precedence :
    List.Pairwise (fun a b : String × String => b.1.length ≤ a.1.length) sortedKeywords ∧
    ∀ evt : Evt,
      occursIn "clinical skills practical prep session".data (comboOf evt) = false →
      occursIn "clinical skills practical".data (comboOf evt) = false →
      occursIn "discussion, large group".data (comboOf evt) = false →
      occursIn "discussion, small group".data (comboOf evt) = false →
      occursIn "independent learning".data (comboOf evt) = false →
      occursIn "anatomy lab quiz".data (comboOf evt) = false →
      occursIn "quiz".data (comboOf evt) = false →
      occursIn "anatomy lab".data (comboOf evt) = true →
      colorIdFor evt = some "5" := by
  constructor
  · decide
  · intro evt h38 h25 h23a h23b h20 h16 hq hal
    rw [colorIdFor, sortedKeywords_eval]
    simp [findColor, h38, h25, h23a, h23b, h20, h16, hq, hal]

/-- Witness for C5 (amended) at the record "Anatomy Lab session". -/
theorem categorizer_precedence_witness :
    colorIdFor (Evt.mk "u" "Anatomy Lab session" "" "T" "E") = some "5" :=
  categorizer_precedence.2 (Evt.mk "u" "Anatomy Lab session" "" "T" "E")
    (by decide) (by decide) (by decide) (by decide) (by decide) (by decide)
    (by decide) (by decide)

/-! ### The dead "Q&A" rule -/

theorem lowerLookup_ne (tbl : List (Char × Char)) (c x : Char)
    (hsnd : ∀ p ∈ tbl, p.2 ≠ x)
    (h : x ∈ tbl.map Prod.fst ∨ c ≠ x) : lowerLookup tbl c ≠ x := by
  induction tbl generalizing c with
  | nil =>
    rcases h with h | h
    · simp at h
    · exact h
  | cons p rest ih =>
    rw [show lowerLookup (p :: rest) c = if c = p.1 then p.2 else lowerLookup rest c from rfl]
    by_cases hc : c = p.1
    · rw [if_pos hc]
      exact hsnd p (List.mem_cons_self p rest)
    · rw [if_neg hc]
      refine ih c (fun q hq => hsnd q (List.mem_cons_of_mem p hq)) ?_
      rcases h with hx | hx
      · rcases List.mem_cons.1 hx with hx1 | hx1
        · exact Or.inr (fun hcx => hc (hcx.trans hx1))
        · exact Or.inl hx1
      · exact Or.inr hx

theorem lowerChar_ne_Q (c : Char) : lowerChar c ≠ 'Q' :=
  lowerLookup_ne UPPER_LOWER c 'Q' (by decide) (Or.inl (by decide))

theorem occursIn_head_mem (c : Char) (rest s : List Char) :
    occursIn (c :: rest) s = true → c ∈ s := by
  induction s with
  | nil => intro h; simp [occursIn, List.isEmpty] at h
  | cons d t ih =>
    intro h
    rw [occursIn, Bool.or_eq_true] at h
    rcases h with h | h
    · rw [startsWithPat, Bool.and_eq_true] at h
      have : d = c := by simpa using h.1
      exact this ▸ List.mem_cons_self d t
    · exact List.mem_cons_of_mem d (ih h)

theorem qa_not_in_lower (s : String) : occursIn "Q&A".data (lowerData s) = false := by
  cases h : occursIn "Q&A".data (lowerData s) with
  | false => rfl
  | true =>
    exfalso
    have h' : occursIn ('Q' :: "&A".data) (lowerData s) = true := h
    have hmem : 'Q' ∈ lowerData s := occursIn_head_mem _ _ _ h'
    rcases List.mem_map.1 hmem with ⟨c, _, hc⟩
    exact lowerChar_ne_Q c hc

/-- The categorizer computed over the keyword table with the `"Q&A"` rule
removed — the comparison point for the dead-rule claim. -/
def colorIdForNoQA (evt : Evt) : Option String :=
  let combo := comboOf evt
  if occursIn "anatomy lab".data combo && occursIn "quiz".data combo then some "7"
  else findColor (sortedKeywords.filter (fun p => p.1 ≠ "Q&A")) combo

/-- C10: the search text is lowercased before matching, so the keyword
"Q&A" (which contains uppercase letters) is never found in it, and removing
that rule from the table never changes the categorizer's result. -/
theorem qa_rule_dead (evt : Evt) :
    occursIn "Q&A".data (comboOf evt) = false ∧
    colorIdFor evt = colorIdForNoQA evt := by
  have hqa : occursIn "Q&A".data (comboOf evt) = false := by
    rw [comboOf]
    exact qa_not_in_lower _
  refine ⟨hqa, ?_⟩
  have hfilter : sortedKeywords.filter (fun p => p.1 ≠ "Q&A") =
      [("clinical skills practical prep session", "8"),
       ("clinical skills practical", "7"),
       ("discussion, large group", "8"),
       ("discussion, small group", "4"),
       ("independent learning", "8"),
       ("anatomy lab quiz", "7"),
       ("anatomy lab", "5"),
       ("simulation", "8"),
       ("required", "4"),
       ("optional", "8"),
       ("lecture", "10"),
       ("holiday", "8"),
       ("exam", "7"),
       ("quiz", "7"),
       ("lab", "5")] := by decide
  rw [colorIdFor, colorIdForNoQA, hfilter, sortedKeywords_eval]
  simp only [findColor, hqa, Bool.false_eq_true, if_false]

/-! ### The mirror driver of `mirror_and_color` -/

/-- Per-record, per-destination outcome of the mirroring loop
(full_sync3.py lines 191-202). -/
inductive Outcome where
  | added
  | skipped
  | failed
deriving DecidableEq, Repr

/-- full_sync3.py line 19. -/
def PRIVATE_CALENDAR_ID : String :=
  "8dea85b44750d38fb4078c1b591061ed4e0b1e1c264711845f6d8fdf262e433b@group.calendar.google.com"

/-- full_sync3.py line 18. -/
def PUBLIC_CALENDAR_ID : String :=
  "2187de2770511a23a663ff47a97c476fe6845850299dbab3d690cd6f10bd8ed4@group.calendar.google.com"

/-- The mutable state of the mirroring loop: the per-destination key sets
(the `mirrored` dict, destination id → set of pushed keys, in dict order),
the index of the next `insert` call, the log of `insert` calls issued
(destination, key), the per-(record, destination) outcomes in order, and
the `added`/`skipped` counters. -/
structure MirrorState where
  mirrored : List (String × List String)
  callIdx : Nat
  callLog : List (String × String)
  outcomes : List (String × String × Outcome)
  added : Nat
  skipped : Nat
deriving DecidableEq, Repr

/-- `uids.add(key)` on the set of destination `d`. -/
def addKey (m : List (String × List String)) (d k : String) :
    List (String × List String) :=
  m.map (fun p => if p.1 = d then (p.1, p.2 ++ [k]) else p)

/-- The key set of destination `d` (empty when unknown). -/
def lookupD (m : List (String × List String)) (d : String) : List String :=
  (lookupK m d).getD []

/-- The body of the inner loop of `mirror_and_color`
(full_sync3.py lines 191-202) for one record `evt` and one destination `d`:
skip without any network call if the key is already in the destination's
set; otherwise issue the `insert` call (its success given by
`oracle st.callIdx`), and only on success add the key and count `added`. -/
def stepDest (oracle : Nat → Bool) (evt : Evt) (st : MirrorState) (d : String) :
    MirrorState :=
  let k := keyOf evt
  if k ∈ lookupD st.mirrored d then
    { st with skipped := st.skipped + 1,
              outcomes := st.outcomes ++ [(d, k, Outcome.skipped)] }
  else if oracle st.callIdx then
    { st with mirrored := addKey st.mirrored d k,
              callIdx := st.callIdx + 1,
              callLog := st.callLog ++ [(d, k)],
              outcomes := st.outcomes ++ [(d, k, Outcome.added)],
              added := st.added + 1 }
  else
    { st with callIdx := st.callIdx + 1,
              callLog := st.callLog ++ [(d, k)],
              outcomes := st.outcomes ++ [(d, k, Outcome.failed)] }

/-- The initial state: per-destination sets as loaded from disk, nothing
pushed, logged or counted yet. -/
def initState (init : List (String × List String)) : MirrorState :=
  { mirrored := init, callIdx := 0, callLog := [], outcomes := [],
    added := 0, skipped := 0 }

/-- The double loop of `mirror_and_color` (full_sync3.py lines 167-202):
for each stored record, for each destination of the `mirrored` dict (in
dict order), run `stepDest`. -/
def mirrorRun (oracle : Nat → Bool) (events : List Evt)
    (init : List (String × List String)) : MirrorState :=
  events.foldl (fun st evt => (init.map Prod.fst).foldl (stepDest oracle evt) st)
    (initState init)

/-- `mirror_and_color` with its durable inputs and outputs: the two
mirrored-uid files are read at lines 150-161 (a missing file is an empty
starting set), and the source contains NO write of either file — the
function returns the on-disk contents after the run, which are therefore
exactly the inputs. -/
def mirror_and_color (oracle : Nat → Bool) (events : List Evt)
    (privFile pubFile : Option (List String)) :
    MirrorState × Option (List String) × Option (List String) :=
  let init := [(PRIVATE_CALENDAR_ID, privFile.getD []),
               (PUBLIC_CALENDAR_ID, pubFile.getD [])]
  (mirrorRun oracle events init, privFile, pubFile)

/-! ### Lemmas about the mirror state machine -/

theorem keys_addKey (m : List (String × List String)) (d k : String) :
    (addKey m d k).map Prod.fst = m.map Prod.fst := by
  unfold addKey
  rw [List.map_map]
  refine List.map_congr_left (fun p _ => ?_)
  by_cases hp : p.1 = d
  · simp [hp]
  · simp [hp]

theorem mem_keys_of_lookupK_some {α : Type} (m : List (String × α)) (d : String) (v : α)
    (h : lookupK m d = some v) : d ∈ m.map Prod.fst := by
  induction m with
  | nil => simp [lookupK] at h
  | cons p t ih =>
    rw [lookupK] at h
    by_cases hp : p.1 = d
    · simp [hp]
    · rw [if_neg hp] at h
      simp [ih h]

theorem lookupK_some_of_mem_keys (m : List (String × List String)) (d : String)
    (h : d ∈ m.map Prod.fst) : ∃ l, lookupK m d = some l := by
  induction m with
  | nil => simp at h
  | cons p t ih =>
    by_cases hp : p.1 = d
    · exact ⟨p.2, by simp [lookupK, hp]⟩
    · simp only [List.map_cons, List.mem_cons] at h
      rcases h with h | h
      · exact absurd h.symm hp
      · rcases ih h with ⟨l, hl⟩
        exact ⟨l, by simp [lookupK, hp, hl]⟩

theorem lookupK_addKey (m : List (String × List String)) (d' k' d : String) :
    lookupK (addKey m d' k') d =
      if d = d' then (lookupK m d).map (fun l => l ++ [k']) else lookupK m d := by
  induction m with
  | nil =>
    simp only [addKey, List.map_nil, lookupK]
    by_cases h : d = d' <;> simp [h]
  | cons p t ih =>
    have htail : lookupK (addKey t d' k') d =
        if d = d' then (lookupK t d).map (fun l => l ++ [k']) else lookupK t d := ih
    by_cases hp : p.1 = d'
    · by_cases hd : p.1 = d
      · have hdd : d = d' := by rw [← hd, hp]
        simp only [addKey, List.map_cons, if_pos hp, lookupK, hd, if_pos rfl, if_pos hdd]
        simp [lookupK, hd]
      · simp only [addKey, List.map_cons, if_pos hp, lookupK, if_neg hd]
        rw [show lookupK (List.map (fun p => if p.1 = d' then (p.1, p.2 ++ [k']) else p) t) d =
          lookupK (addKey t d' k') d from rfl, htail]
    · by_cases hd : p.1 = d
      · have hdd : ¬ (d = d') := by rw [← hd]; exact fun h => hp h
        simp only [addKey, List.map_cons, if_neg hp, lookupK, if_pos hd, if_neg hdd]
      · simp only [addKey, List.map_cons, if_neg hp, lookupK, if_neg hd]
        rw [show lookupK (List.map (fun p => if p.1 = d' then (p.1, p.2 ++ [k']) else p) t) d =
          lookupK (addKey t d' k') d from rfl, htail]

theorem mem_lookupD_addKey_mono (m : List (String × List String)) (d' k' d x : String)
    (h : x ∈ lookupD m d) : x ∈ lookupD (addKey m d' k') d := by
  unfold lookupD at *
  rw [lookupK_addKey]
  by_cases hdd : d = d'
  · rw [if_pos hdd]
    cases hm : lookupK m d with
    | none => rw [hm] at h; simp at h
    | some l =>
      rw [hm] at h
      simp only [Option.getD_some] at h
      simp [List.mem_append, h]
  · rw [if_neg hdd]; exact h

theorem mem_lookupD_addKey_self (m : List (String × List String)) (d k : String)
    (h : d ∈ m.map Prod.fst) : k ∈ lookupD (addKey m d k) d := by
  rcases lookupK_some_of_mem_keys m d h with ⟨l, hl⟩
  unfold lookupD
  rw [lookupK_addKey, if_pos rfl, hl]
  simp

theorem mem_lookupD_addKey_cases (m : List (String × List String)) (d' k' d x : String)
    (h : x ∈ lookupD (addKey m d' k') d) :
    x ∈ lookupD m d ∨ (d = d' ∧ x = k') := by
  unfold lookupD at *
  rw [lookupK_addKey] at h
  by_cases hdd : d = d'
  · rw [if_pos hdd] at h
    cases hm : lookupK m d with
    | none => rw [hm] at h; simp at h
    | some l =>
      rw [hm] at h
      simp only [Option.map_some', Option.getD_some] at h
      rcases List.mem_append.1 h with h | h
      · exact Or.inl (by simpa using h)
      · simp only [List.mem_singleton] at h
        exact Or.inr ⟨hdd, h⟩
  · rw [if_neg hdd] at h; exact Or.inl h

theorem stepDest_keys (oracle : Nat → Bool) (evt : Evt) (st : MirrorState) (d' : String) :
    (stepDest oracle evt st d').mirrored.map Prod.fst = st.mirrored.map Prod.fst := by
  simp only [stepDest]
  split_ifs <;> simp [keys_addKey]

theorem stepDest_mem_mono (oracle : Nat → Bool) (evt : Evt) (st : MirrorState)
    (d' d k : String) (h : k ∈ lookupD st.mirrored d) :
    k ∈ lookupD (stepDest oracle evt st d').mirrored d := by
  simp only [stepDest]
  split_ifs
  · exact h
  · exact mem_lookupD_addKey_mono _ _ _ _ _ h
  · exact h

theorem stepDest_outcomes_mono (oracle : Nat → Bool) (evt : Evt) (st : MirrorState)
    (d' : String) (x : String × String × Outcome) (h : x ∈ st.outcomes) :
    x ∈ (stepDest oracle evt st d').outcomes := by
  simp only [stepDest]
  split_ifs <;> exact List.mem_append.2 (Or.inl h)

theorem stepDest_outcomes_len (oracle : Nat → Bool) (evt : Evt) (st : MirrorState)
    (d' : String) :
    (stepDest oracle evt st d').outcomes.length = st.outcomes.length + 1 := by
  simp only [stepDest]
  split_ifs <;> simp

theorem destsFold_outcomes_mono (oracle : Nat → Bool) (evt : Evt) (ds : List String) :
    ∀ (st : MirrorState) (x : String × String × Outcome), x ∈ st.outcomes →
      x ∈ (ds.foldl (stepDest oracle evt) st).outcomes := by
  induction ds with
  | nil => intro st x h; exact h
  | cons d0 ds ih =>
    intro st x h
    rw [List.foldl_cons]
    exact ih _ x (stepDest_outcomes_mono oracle evt st d0 x h)

theorem destsFold_mem_mono (oracle : Nat → Bool) (evt : Evt) (ds : List String) :
    ∀ (st : MirrorState) (d k : String), k ∈ lookupD st.mirrored d →
      k ∈ lookupD (ds.foldl (stepDest oracle evt) st).mirrored d := by
  induction ds with
  | nil => intro st d k h; exact h
  | cons d0 ds ih =>
    intro st d k h
    rw [List.foldl_cons]
    exact ih _ d k (stepDest_mem_mono oracle evt st d0 d k h)

theorem destsFold_keys (oracle : Nat → Bool) (evt : Evt) (ds : List String) :
    ∀ st : MirrorState,
      ((ds.foldl (stepDest oracle evt) st).mirrored.map Prod.fst) =
        st.mirrored.map Prod.fst := by
  induction ds with
  | nil => intro st; rfl
  | cons d0 ds ih =>
    intro st
    rw [List.foldl_cons, ih, stepDest_keys]

theorem stepDest_preserves_skip_inv (oracle : Nat → Bool) (evt : Evt) (st : MirrorState)
    (d' d k : String)
    (h1 : k ∈ lookupD st.mirrored d) (h2 : (d, k) ∉ st.callLog) :
    k ∈ lookupD (stepDest oracle evt st d').mirrored d ∧
      (d, k) ∉ (stepDest oracle evt st d').callLog := by
  refine ⟨stepDest_mem_mono oracle evt st d' d k h1, ?_⟩
  simp only [stepDest]
  split_ifs with hskip hsucc
  · exact h2
  · intro hmem
    rcases List.mem_append.1 hmem with hmem | hmem
    · exact h2 hmem
    · simp only [List.mem_singleton, Prod.mk.injEq] at hmem
      rcases hmem with ⟨h3, h4⟩
      rw [← h3, ← h4] at hskip
      exact hskip h1
  · intro hmem
    rcases List.mem_append.1 hmem with hmem | hmem
    · exact h2 hmem
    · simp only [List.mem_singleton, Prod.mk.injEq] at hmem
      rcases hmem with ⟨h3, h4⟩
      rw [← h3, ← h4] at hskip
      exact hskip h1

theorem destsFold_preserves_skip_inv (oracle : Nat → Bool) (evt : Evt) (ds : List String) :
    ∀ (st : MirrorState) (d k : String),
      k ∈ lookupD st.mirrored d → (d, k) ∉ st.callLog →
      k ∈ lookupD (ds.foldl (stepDest oracle evt) st).mirrored d ∧
        (d, k) ∉ (ds.foldl (stepDest oracle evt) st).callLog := by
  induction ds with
  | nil => intro st d k h1 h2; exact ⟨h1, h2⟩
  | cons d0 ds ih =>
    intro st d k h1 h2
    rw [List.foldl_cons]
    have h := stepDest_preserves_skip_inv oracle evt st d0 d k h1 h2
    exact ih _ d k h.1 h.2

theorem eventsFold_preserves_skip_inv (oracle : Nat → Bool) (ds : List String)
    (events : List Evt) :
    ∀ (st : MirrorState) (d k : String),
      k ∈ lookupD st.mirrored d → (d, k) ∉ st.callLog →
      k ∈ lookupD ((events.foldl (fun st evt => ds.foldl (stepDest oracle evt) st) st)).mirrored d ∧
        (d, k) ∉ ((events.foldl (fun st evt => ds.foldl (stepDest oracle evt) st) st)).callLog := by
  induction events with
  | nil => intro st d k h1 h2; exact ⟨h1, h2⟩
  | cons e t ih =>
    intro st d k h1 h2
    rw [List.foldl_cons]
    have h := destsFold_preserves_skip_inv oracle e ds st d k h1 h2
    exact ih _ d k h.1 h.2

theorem eventsFold_outcomes_mono (oracle : Nat → Bool) (ds : List String)
    (events : List Evt) :
    ∀ (st : MirrorState) (x : String × String × Outcome), x ∈ st.outcomes →
      x ∈ ((events.foldl (fun st evt => ds.foldl (stepDest oracle evt) st) st)).outcomes := by
  induction events with
  | nil => intro st x h; exact h
  | cons e t ih =>
    intro st x h
    rw [List.foldl_cons]
    exact ih _ x (destsFold_outcomes_mono oracle e ds st x h)

theorem stepDest_skip_outcome (oracle : Nat → Bool) (evt : Evt) (st : MirrorState)
    (d : String) (h : keyOf evt ∈ lookupD st.mirrored d) :
    (d, keyOf evt, Outcome.skipped) ∈ (stepDest oracle evt st d).outcomes := by
  simp only [stepDest]
  rw [if_pos h]
  exact List.mem_append.2 (Or.inr (by simp))

theorem destsFold_skip_outcome (oracle : Nat → Bool) (evt : Evt) (d : String)
    (ds : List String) :
    ∀ st : MirrorState, keyOf evt ∈ lookupD st.mirrored d → d ∈ ds →
      (d, keyOf evt, Outcome.skipped) ∈ (ds.foldl (stepDest oracle evt) st).outcomes := by
  induction ds with
  | nil => intro st _ h; simp at h
  | cons d0 ds ih =>
    intro st hmem hd
    rw [List.foldl_cons]
    rcases List.mem_cons.1 hd with rfl | hd
    · exact destsFold_outcomes_mono oracle evt ds _ _
        (stepDest_skip_outcome oracle evt st d hmem)
    · exact ih _ (stepDest_mem_mono oracle evt st d0 d _ hmem) hd

theorem eventsFold_skip_outcome (oracle : Nat → Bool) (ds : List String) (d k : String)
    (hd : d ∈ ds) (events : List Evt) :
    ∀ st : MirrorState, k ∈ lookupD st.mirrored d →
      (∃ evt ∈ events, keyOf evt = k) →
      (d, k, Outcome.skipped) ∈
        ((events.foldl (fun st evt => ds.foldl (stepDest oracle evt) st) st)).outcomes := by
  induction events with
  | nil => intro st _ h; simp at h
  | cons e t ih =>
    intro st hmem hex
    rw [List.foldl_cons]
    by_cases he : keyOf e = k
    · refine eventsFold_outcomes_mono oracle ds t _ _ ?_
      rw [← he]
      exact destsFold_skip_outcome oracle e d ds st (he ▸ hmem) hd
    · rcases hex with ⟨evt, hevt, hkey⟩
      rcases List.mem_cons.1 hevt with rfl | hevt'
      · exact absurd hkey he
      · exact ih _ (destsFold_mem_mono oracle e ds st d k hmem) ⟨evt, hevt', hkey⟩

theorem mem_keys_of_lookupD (m : List (String × List String)) (d k : String)
    (h : k ∈ lookupD m d) : d ∈ m.map Prod.fst := by
  unfold lookupD at h
  cases hm : lookupK m d with
  | none => rw [hm] at h; simp at h
  | some l => exact mem_keys_of_lookupK_some m d l hm

/-! ### Claims about the mirror driver -/

/-- C7: skip correctness. If a key is in a destination's Progress Set at the
start of the run, the run issues no `insert` call for that (destination,
key) pair, the key is still in the destination's set at the end, and every
stored record bearing that key is recorded as skipped for that
destination. -/
theorem skip_correctness (oracle : Nat → Bool) (events : List Evt)
    (init : List (String × List String)) (d k : String)
    (hk : k ∈ lookupD init d) :
    (d, k) ∉ (mirrorRun oracle events init).callLog ∧
    k ∈ lookupD (mirrorRun oracle events init).mirrored d ∧
    ∀ evt ∈ events, keyOf evt = k →
      (d, k, Outcome.skipped) ∈ (mirrorRun oracle events init).outcomes := by
  have hd : d ∈ init.map Prod.fst := mem_keys_of_lookupD init d k hk
  have hinv := eventsFold_preserves_skip_inv oracle (init.map Prod.fst) events
    (initState init) d k hk (by simp [initState])
  refine ⟨hinv.2, hinv.1, ?_⟩
  intro evt hevt hkey
  exact eventsFold_skip_outcome oracle (init.map Prod.fst) d k hd events
    (initState init) hk ⟨evt, hevt, hkey⟩

/-- Witness for C7: one record whose key is already in the private
destination's Progress Set — the run issues no call for it, keeps it in the
set, and counts it skipped. -/
theorem skip_correctness_witness :
    (PRIVATE_CALENDAR_ID, "A|T") ∉
      (mirrorRun (fun _ => true) [Evt.mk "u" "A" "" "T" "E"]
        [(PRIVATE_CALENDAR_ID, ["A|T"]), (PUBLIC_CALENDAR_ID, [])]).callLog ∧
    "A|T" ∈ lookupD (mirrorRun (fun _ => true) [Evt.mk "u" "A" "" "T" "E"]
        [(PRIVATE_CALENDAR_ID, ["A|T"]), (PUBLIC_CALENDAR_ID, [])]).mirrored
        PRIVATE_CALENDAR_ID ∧
    ∀ evt ∈ [Evt.mk "u" "A" "" "T" "E"], keyOf evt = "A|T" →
      (PRIVATE_CALENDAR_ID, "A|T", Outcome.skipped) ∈
        (mirrorRun (fun _ => true) [Evt.mk "u" "A" "" "T" "E"]
          [(PRIVATE_CALENDAR_ID, ["A|T"]), (PUBLIC_CALENDAR_ID, [])]).outcomes :=
  skip_correctness (fun _ => true) [Evt.mk "u" "A" "" "T" "E"]
    [(PRIVATE_CALENDAR_ID, ["A|T"]), (PUBLIC_CALENDAR_ID, [])]
    PRIVATE_CALENDAR_ID "A|T" (by decide)

theorem stepDest_mem_iff (oracle : Nat → Bool) (evt : Evt) (st : MirrorState)
    (d' d k : String) (init : List (String × List String))
    (hd' : d' ∈ st.mirrored.map Prod.fst)
    (hQ : k ∈ lookupD st.mirrored d ↔
      k ∈ lookupD init d ∨ (d, k, Outcome.added) ∈ st.outcomes) :
    k ∈ lookupD (stepDest oracle evt st d').mirrored d ↔
      k ∈ lookupD init d ∨ (d, k, Outcome.added) ∈ (stepDest oracle evt st d').outcomes := by
  simp only [stepDest]
  split_ifs with hskip hsucc
  · show k ∈ lookupD st.mirrored d ↔ k ∈ lookupD init d ∨
      (d, k, Outcome.added) ∈ st.outcomes ++ [(d', keyOf evt, Outcome.skipped)]
    rw [hQ]
    constructor
    · rintro (h | h)
      · exact Or.inl h
      · exact Or.inr (List.mem_append.2 (Or.inl h))
    · rintro (h | h)
      · exact Or.inl h
      · rcases List.mem_append.1 h with h | h
        · exact Or.inr h
        · simp at h
  · show k ∈ lookupD (addKey st.mirrored d' (keyOf evt)) d ↔ k ∈ lookupD init d ∨
      (d, k, Outcome.added) ∈ st.outcomes ++ [(d', keyOf evt, Outcome.added)]
    constructor
    · intro h
      rcases mem_lookupD_addKey_cases st.mirrored d' (keyOf evt) d k h with h | ⟨h1, h2⟩
      · rcases hQ.1 h with h | h
        · exact Or.inl h
        · exact Or.inr (List.mem_append.2 (Or.inl h))
      · refine Or.inr (List.mem_append.2 (Or.inr ?_))
        rw [h1, h2]
        simp
    · rintro (h | h)
      · exact mem_lookupD_addKey_mono _ _ _ _ _ (hQ.2 (Or.inl h))
      · rcases List.mem_append.1 h with h | h
        · exact mem_lookupD_addKey_mono _ _ _ _ _ (hQ.2 (Or.inr h))
        · simp only [List.mem_singleton, Prod.mk.injEq] at h
          rcases h with ⟨h1, h2, _⟩
          rw [h1, h2]
          exact mem_lookupD_addKey_self st.mirrored d' (keyOf evt) hd'
  · show k ∈ lookupD st.mirrored d ↔ k ∈ lookupD init d ∨
      (d, k, Outcome.added) ∈ st.outcomes ++ [(d', keyOf evt, Outcome.failed)]
    rw [hQ]
    constructor
    · rintro (h | h)
      · exact Or.inl h
      · exact Or.inr (List.mem_append.2 (Or.inl h))
    · rintro (h | h)
      · exact Or.inl h
      · rcases List.mem_append.1 h with h | h
        · exact Or.inr h
        · simp at h

theorem destsFold_mem_iff (oracle : Nat → Bool) (evt : Evt) (d k : String)
    (init : List (String × List String)) (ds : List String) :
    ∀ st : MirrorState, (∀ d'' ∈ ds, d'' ∈ st.mirrored.map Prod.fst) →
      (k ∈ lookupD st.mirrored d ↔
        k ∈ lookupD init d ∨ (d, k, Outcome.added) ∈ st.outcomes) →
      (k ∈ lookupD (ds.foldl (stepDest oracle evt) st).mirrored d ↔
        k ∈ lookupD init d ∨
          (d, k, Outcome.added) ∈ (ds.foldl (stepDest oracle evt) st).outcomes) := by
  induction ds with
  | nil => intro st _ hQ; exact hQ
  | cons d0 ds ih =>
    intro st hds hQ
    rw [List.foldl_cons]
    refine ih _ (fun d'' hd'' => ?_)
      (stepDest_mem_iff oracle evt st d0 d k init
        (hds d0 (List.mem_cons_self d0 ds)) hQ)
    rw [stepDest_keys]
    exact hds d'' (List.mem_cons_of_mem _ hd'')

theorem eventsFold_mem_iff (oracle : Nat → Bool) (d k : String)
    (init : List (String × List String)) (ds : List String) (events : List Evt) :
    ∀ st : MirrorState, (∀ d'' ∈ ds, d'' ∈ st.mirrored.map Prod.fst) →
      (k ∈ lookupD st.mirrored d ↔
        k ∈ lookupD init d ∨ (d, k, Outcome.added) ∈ st.outcomes) →
      (k ∈ lookupD
          ((events.foldl (fun st evt => ds.foldl (stepDest oracle evt) st) st)).mirrored d ↔
        k ∈ lookupD init d ∨ (d, k, Outcome.added) ∈
          ((events.foldl (fun st evt => ds.foldl (stepDest oracle evt) st) st)).outcomes) := by
  induction events with
  | nil => intro st _ hQ; exact hQ
  | cons e t ih =>
    intro st hds hQ
    rw [List.foldl_cons]
    refine ih _ (fun d'' hd'' => ?_) (destsFold_mem_iff oracle e d k init ds st hds hQ)
    rw [destsFold_keys]
    exact hds d'' hd''

theorem destsFold_outcomes_len (oracle : Nat → Bool) (evt : Evt) (ds : List String) :
    ∀ st : MirrorState,
      (ds.foldl (stepDest oracle evt) st).outcomes.length =
        st.outcomes.length + ds.length := by
  induction ds with
  | nil => intro st; rfl
  | cons d0 ds ih =>
    intro st
    rw [List.foldl_cons, ih, stepDest_outcomes_len, List.length_cons]
    omega

theorem eventsFold_outcomes_len (oracle : Nat → Bool) (ds : List String)
    (events : List Evt) :
    ∀ st : MirrorState,
      ((events.foldl (fun st evt => ds.foldl (stepDest oracle evt) st) st)).outcomes.length =
        st.outcomes.length + events.length * ds.length := by
  induction events with
  | nil => intro st; simp
  | cons e t ih =>
    intro st
    rw [List.foldl_cons, ih, destsFold_outcomes_len, List.length_cons]
    ring

/-- C8: per-destination independence and continue-on-failure. First
conjunct: every (record, destination) pair of the run gets an outcome — no
failure aborts the batch. Second conjunct: a key ends up in a destination's
set exactly when it was there at the start of the run or some push of it to
that destination succeeded — a failed push never adds the key, and pushes
to one destination never touch another destination's set. -/
theorem per_destination_independence (oracle : Nat → Bool) (events : List Evt)
    (init : List (String × List String)) (d k : String) :
    (mirrorRun oracle events init).outcomes.length = events.length * init.length ∧
    (k ∈ lookupD (mirrorRun oracle events init).mirrored d ↔
      k ∈ lookupD init d ∨
        (d, k, Outcome.added) ∈ (mirrorRun oracle events init).outcomes) := by
  constructor
  · rw [mirrorRun, eventsFold_outcomes_len]
    simp [initState]
  · exact eventsFold_mem_iff oracle d k init (init.map Prod.fst) events (initState init)
      (fun d'' hd'' => hd'') (by simp [initState])

/-- C1 (code bug, evaluated at the failing input): with no pre-existing
mirror files, one stored record and every `insert` succeeding, the run
pushes the record's key to the private (and public) destination — the key
enters the in-memory set and an `added` outcome is recorded — yet the
mirrored-uid files after the run are still missing/empty, because
`mirror_and_color` never writes them. The persisted Progress Set therefore
does NOT equal the set of successfully pushed keys. -/
theorem progress_set_not_persisted :
    (PRIVATE_CALENDAR_ID, keyOf (Evt.mk "u" "A" "" "T" "E"), Outcome.added) ∈
      (mirror_and_color (fun _ => true) [Evt.mk "u" "A" "" "T" "E"] none none).1.outcomes ∧
    keyOf (Evt.mk "u" "A" "" "T" "E") ∈
      lookupD (mirror_and_color (fun _ => true) [Evt.mk "u" "A" "" "T" "E"] none none).1.mirrored
        PRIVATE_CALENDAR_ID ∧
    (mirror_and_color (fun _ => true) [Evt.mk "u" "A" "" "T" "E"] none none).2.1 = none ∧
    (mirror_and_color (fun _ => true) [Evt.mk "u" "A" "" "T" "E"] none none).2.2 = none := by
  decide

end IliosSync
